import Mathlib

/-!
Verification of the project-library filtering subsystem of the website:
the filter state store, query-string synchronization, debounced search,
and the filter bar controller (`src/app/projects/page.tsx` together with
the state store it uses).
-/

namespace Website

/-- Filter categories are a closed, statically known set (the
`ProjectFilter` type of the state store): the `themes` and `status`
facets. -/
inductive ProjectFilter where
  | themes
  | status
deriving DecidableEq, Repr

/-- All filter categories, in declaration order. -/
def allFilters : List ProjectFilter := [.themes, .status]

theorem mem_allFilters (c : ProjectFilter) : c ∈ allFilters := by
  cases c <;> decide

/-- The theme tag values statically known to the UI: the keys of
`ThemesButtonMapping` in `project-filters-bar`. -/
def themeValues : List String := ["build", "play", "research"]

/-- The status values statically known to the UI: the keys of
`ThemesStatusMapping` in `project-filters-bar`. -/
def statusValues : List String := ["active", "archived"]

/-- The valid values declared for each category. -/
def declaredValues : ProjectFilter → List String
  | .themes => themeValues
  | .status => statusValues

/-- The URL query-string key used for each category. -/
def categoryKey : ProjectFilter → String
  | .themes => "themes"
  | .status => "status"

/-- A set of values per filter category.  Used both for a project's tag
sets and for the active filter selections (`activeFilters` in the
store). -/
structure CategorySets where
  themes : Finset String
  status : Finset String
deriving DecidableEq

def CategorySets.get (f : CategorySets) : ProjectFilter → Finset String
  | .themes => f.themes
  | .status => f.status

def CategorySets.set (f : CategorySets) : ProjectFilter → Finset String → CategorySets
  | .themes, s => { f with themes := s }
  | .status, s => { f with status := s }

/-- The empty selection state (`activeFilters: {}`). -/
def noFilters : CategorySets := ⟨∅, ∅⟩

/-- A project record (`ProjectInterface`): display name, summary text
(`tldr`) and tag sets per category. -/
structure Project where
  name : String
  tldr : String
  tags : CategorySets
deriving DecidableEq

/-- Does the needle occur at the head of the haystack? -/
def occursAt : List Char → List Char → Bool
  | [], _ => true
  | _ :: _, [] => false
  | a :: as, b :: bs => a == b && occursAt as bs

/-- Does the needle occur contiguously anywhere in the haystack? -/
def substrCheck (n : List Char) : List Char → Bool
  | [] => occursAt n []
  | b :: bs => occursAt n (b :: bs) || substrCheck n bs

/-- The characters of a string, lowercased. -/
def lowerChars (s : String) : List Char := s.data.map Char.toLower

/-- Modelled from the spec: the store's free-text match (the store module
`useProjectFiltersState` is not part of this excerpt) — the term, when
non-empty, appears as a case-insensitive substring of the project's name
or summary text. -/
def matchesSearch (q : String) (p : Project) : Bool :=
  q.isEmpty || substrCheck (lowerChars q) (lowerChars p.name)
    || substrCheck (lowerChars q) (lowerChars p.tldr)

/-- Modelled from the spec: a project matches the category filters when,
for every category with at least one selected value, the project's tag
set for that category intersects the selected set. -/
def matchesFilters (f : CategorySets) (p : Project) : Bool :=
  allFilters.all fun c =>
    decide (f.get c = ∅) || decide ((f.get c ∩ p.tags.get c).Nonempty)

/-- Modelled from the spec: the filtering algorithm of the store
(`useProjectFiltersState` is not part of this excerpt), applied on every
mutation. -/
def filterProjects (catalog : List Project) (f : CategorySets) (q : String) :
    List Project :=
  catalog.filter fun p => matchesFilters f p && matchesSearch q p

theorem occursAt_iff (n h : List Char) :
    occursAt n h = true ↔ ∃ t, n ++ t = h := by
  induction n generalizing h with
  | nil => simp [occursAt]
  | cons a as ih =>
    cases h with
    | nil => simp [occursAt]
    | cons b bs =>
      simp only [occursAt, Bool.and_eq_true, beq_iff_eq, ih, List.cons_append,
        List.cons.injEq]
      constructor
      · rintro ⟨rfl, t, rfl⟩
        exact ⟨t, rfl, rfl⟩
      · rintro ⟨t, rfl, rfl⟩
        exact ⟨rfl, t, rfl⟩

theorem substrCheck_iff (n h : List Char) :
    substrCheck n h = true ↔ ∃ s t, s ++ n ++ t = h := by
  induction h with
  | nil =>
    cases n <;> simp [substrCheck, occursAt]
  | cons b bs ih =>
    simp only [substrCheck, Bool.or_eq_true, occursAt_iff, ih]
    constructor
    · rintro (⟨t, ht⟩ | ⟨s, t, rfl⟩)
      · exact ⟨[], t, by simpa using ht⟩
      · exact ⟨b :: s, t, rfl⟩
    · rintro ⟨s, t, hst⟩
      cases s with
      | nil => exact Or.inl ⟨t, by simpa using hst⟩
      | cons c cs =>
        simp only [List.cons_append, List.cons.injEq] at hst
        exact Or.inr ⟨cs, t, hst.2⟩

theorem matchesFilters_iff (f : CategorySets) (p : Project) :
    matchesFilters f p = true ↔
      ∀ c : ProjectFilter, (f.get c).Nonempty →
        ∃ v ∈ f.get c, v ∈ p.tags.get c := by
  simp only [matchesFilters, List.all_eq_true, Bool.or_eq_true, decide_eq_true_eq]
  constructor
  · intro h c hne
    rcases h c (mem_allFilters c) with h0 | h1
    · exact absurd h0 (Finset.nonempty_iff_ne_empty.mp hne)
    · obtain ⟨v, hv⟩ := h1
      rw [Finset.mem_inter] at hv
      exact ⟨v, hv.1, hv.2⟩
  · intro h c _
    by_cases h0 : f.get c = ∅
    · exact Or.inl h0
    · obtain ⟨v, hv1, hv2⟩ := h c (Finset.nonempty_iff_ne_empty.mpr h0)
      exact Or.inr ⟨v, Finset.mem_inter.mpr ⟨hv1, hv2⟩⟩

theorem matchesSearch_iff (q : String) (p : Project) :
    matchesSearch q p = true ↔
      (q ≠ "" →
        (∃ s t, s ++ lowerChars q ++ t = lowerChars p.name) ∨
        (∃ s t, s ++ lowerChars q ++ t = lowerChars p.tldr)) := by
  simp only [matchesSearch, Bool.or_eq_true, substrCheck_iff, String.isEmpty_iff]
  constructor
  · rintro ((rfl | h) | h) hq
    · exact absurd rfl hq
    · exact Or.inl h
    · exact Or.inr h
  · intro h
    by_cases hq : q = ""
    · exact Or.inl (Or.inl hq)
    · rcases h hq with h1 | h2
      · exact Or.inl (Or.inr h1)
      · exact Or.inr h2

/-- C1: a project appears in the filtered result iff it is in the catalog,
for every category with at least one selected value the project's tag set
for that category intersects the selected set (OR within a category, AND
across categories), and, when the search term is non-empty, the term
occurs as a case-insensitive substring of the project's name or summary
text; empty selections and empty search text impose no constraint. -/
theorem filtered_result_characterization
    (catalog : List Project) (f : CategorySets) (q : String) (p : Project) :
    p ∈ filterProjects catalog f q ↔
      p ∈ catalog ∧
      (∀ c : ProjectFilter, (f.get c).Nonempty →
        ∃ v ∈ f.get c, v ∈ p.tags.get c) ∧
      (q ≠ "" →
        (∃ s t, s ++ lowerChars q ++ t = lowerChars p.name) ∨
        (∃ s t, s ++ lowerChars q ++ t = lowerChars p.tldr)) := by
  simp only [filterProjects, List.mem_filter, Bool.and_eq_true,
    matchesFilters_iff, matchesSearch_iff]

/-- The sample catalog of the spec's worked example. -/
def sampleZKit : Project :=
  ⟨"ZKit", "a zk toolkit", ⟨{"build"}, {"active"}⟩⟩

def sampleProofs : Project :=
  ⟨"Proofs101", "learn proofs", ⟨{"research"}, {"active"}⟩⟩

def sampleCatalog : List Project := [sampleZKit, sampleProofs]

theorem filtered_result_characterization_witness :
    filterProjects sampleCatalog ⟨{"research"}, ∅⟩ "" = [sampleProofs] ∧
    (sampleProofs ∈ filterProjects sampleCatalog ⟨{"research"}, ∅⟩ "" ↔
      sampleProofs ∈ sampleCatalog ∧
      (∀ c : ProjectFilter, ((⟨{"research"}, ∅⟩ : CategorySets).get c).Nonempty →
        ∃ v ∈ (⟨{"research"}, ∅⟩ : CategorySets).get c,
          v ∈ sampleProofs.tags.get c) ∧
      ((("" : String)) ≠ "" →
        (∃ s t, s ++ lowerChars "" ++ t = lowerChars sampleProofs.name) ∨
        (∃ s t, s ++ lowerChars "" ++ t = lowerChars sampleProofs.tldr))) :=
  ⟨by decide, filtered_result_characterization sampleCatalog ⟨{"research"}, ∅⟩ "" sampleProofs⟩

/-- Split a character list on a separator character. -/
def splitOnChar (sep : Char) : List Char → List (List Char)
  | [] => [[]]
  | c :: cs =>
    let r := splitOnChar sep cs
    if c == sep then [] :: r
    else (c :: r.headD []) :: r.tail

/-- Modelled from the spec: the store's derived query-string encoding
(the store module is not part of this excerpt) — each category with at
least one selected value contributes `key=value,value,...`, categories in
declaration order, values in declared-value order, pairs joined with
`&`. -/
def encode (f : CategorySets) : String :=
  String.intercalate "&"
    (allFilters.filterMap fun c =>
      if f.get c = ∅ then none
      else some (categoryKey c ++ "=" ++
        String.intercalate "," ((declaredValues c).filter fun v => decide (v ∈ f.get c))))

/-- One `key=values` pair of the query string folded into a selection
state; unknown keys are silently ignored. -/
def parsePair (f : CategorySets) (part : List Char) : CategorySets :=
  match splitOnChar '=' part with
  | [key, vals] =>
    let vs := (splitOnChar ',' vals).map fun cs => String.mk cs
    if String.mk key = "themes" then { f with themes := vs.toFinset }
    else if String.mk key = "status" then { f with status := vs.toFinset }
    else f
  | _ => f

/-- Modelled from the spec: `queryStringToObject` (in `lib/utils`, not
part of this excerpt) — decodes a query string back into a
selection-state object. -/
def decode (q : String) : CategorySets :=
  if q = "" then noFilters
  else (splitOnChar '&' q.data).foldl parsePair noFilters

/-- C3: for every valid selection state (every selected value is one of
the declared values of its category), decoding the encoded query string
restores the selection state exactly, and re-encoding the decoding of an
encoded string yields the identical string. -/
theorem encode_decode_roundtrip (f : CategorySets)
    (h1 : f.themes ⊆ themeValues.toFinset)
    (h2 : f.status ⊆ statusValues.toFinset) :
    decode (encode f) = f ∧ encode (decode (encode f)) = encode f := by
  have key : ∀ t ∈ themeValues.toFinset.powerset,
      ∀ s ∈ statusValues.toFinset.powerset,
      decode (encode ⟨t, s⟩) = (⟨t, s⟩ : CategorySets) := by decide
  obtain ⟨th, st⟩ := f
  have h := key th (Finset.mem_powerset.mpr h1) st (Finset.mem_powerset.mpr h2)
  exact ⟨h, by rw [h]⟩

theorem encode_decode_roundtrip_witness :
    encode (⟨{"play", "build"}, {"active"}⟩ : CategorySets) = "themes=build,play&status=active" ∧
    (decode (encode (⟨{"play", "build"}, {"active"}⟩ : CategorySets)) =
        (⟨{"play", "build"}, {"active"}⟩ : CategorySets) ∧
      encode (decode (encode (⟨{"play", "build"}, {"active"}⟩ : CategorySets))) =
        encode (⟨{"play", "build"}, {"active"}⟩ : CategorySets)) :=
  ⟨by decide, encode_decode_roundtrip ⟨{"play", "build"}, {"active"}⟩ (by decide) (by decide)⟩

/-- The filter store's state (`useProjectFiltersState`): the current
filtered projects, the active filter selections, and the derived query
string. -/
structure ProjectFiltersState where
  projects : List Project
  activeFilters : CategorySets
  queryString : String
deriving DecidableEq

/-- Flip membership of a value in a selected-value set. -/
def toggleValue (s : Finset String) (v : String) : Finset String :=
  if v ∈ s then s.erase v else insert v s

/-- The selection state after flipping one value of one category. -/
def toggledFilters (f : CategorySets) (tag : ProjectFilter) (value : String) :
    CategorySets :=
  f.set tag (toggleValue (f.get tag) value)

/-- Modelled from the spec: `toggleFilter` flips membership of the value
in the category's selected set, recomputes the filtered results against
the full catalog using the updated selections and the supplied search
text, and recomputes the query string. -/
def toggleFilter (catalog : List Project) (st : ProjectFiltersState)
    (tag : ProjectFilter) (value : String) (searchQuery : String) :
    ProjectFiltersState :=
  { projects := filterProjects catalog (toggledFilters st.activeFilters tag value) searchQuery
    activeFilters := toggledFilters st.activeFilters tag value
    queryString := encode (toggledFilters st.activeFilters tag value) }

/-- Modelled from the spec: `onFilterProject` recomputes the filtered
results using the current active filters and the given search text; it
does not change the filter selections. -/
def onFilterProject (catalog : List Project) (st : ProjectFiltersState)
    (searchText : String) : ProjectFiltersState :=
  { st with projects := filterProjects catalog st.activeFilters searchText }

theorem get_set_self (f : CategorySets) (c : ProjectFilter) (s : Finset String) :
    (f.set c s).get c = s := by
  cases c <;> rfl

theorem set_set (f : CategorySets) (c : ProjectFilter) (s s' : Finset String) :
    (f.set c s).set c s' = f.set c s' := by
  cases c <;> rfl

theorem set_get_self (f : CategorySets) (c : ProjectFilter) :
    f.set c (f.get c) = f := by
  cases c <;> rfl

theorem toggleValue_toggleValue (s : Finset String) (v : String) :
    toggleValue (toggleValue s v) v = s := by
  unfold toggleValue
  by_cases h : v ∈ s
  · rw [if_pos h, if_neg (Finset.not_mem_erase v s)]
    exact Finset.insert_erase h
  · rw [if_neg h, if_pos (Finset.mem_insert_self v s)]
    exact Finset.erase_insert h

theorem toggledFilters_toggledFilters (f : CategorySets) (tag : ProjectFilter)
    (value : String) : toggledFilters (toggledFilters f tag value) tag value = f := by
  unfold toggledFilters
  rw [get_set_self, toggleValue_toggleValue, set_set, set_get_self]

/-- C4: invoking `toggleFilter` twice in succession with the same
category, value and search query, with no other mutation in between,
returns the selection state to its original value: toggling an absent
value adds it, toggling a present value removes it. -/
theorem toggleFilter_twice_restores (catalog : List Project)
    (st : ProjectFiltersState) (tag : ProjectFilter) (value : String)
    (searchQuery : String) :
    (toggleFilter catalog (toggleFilter catalog st tag value searchQuery)
        tag value searchQuery).activeFilters = st.activeFilters := by
  show toggledFilters (toggledFilters st.activeFilters tag value) tag value
      = st.activeFilters
  exact toggledFilters_toggledFilters st.activeFilters tag value

/-- The filter bar controller's local state: the store plus the pending
search input text. -/
structure ControllerState where
  store : ProjectFiltersState
  searchQuery : String
deriving DecidableEq

/-- `clearAllFilters` in `ProjectFiltersBar`: resets the store
(`activeFilters: {}`, `queryString: ""`, `projects` set to the full
catalog), clears the local search input, and navigates to bare
`/projects`.  The second component is the navigation target. -/
def clearAllFilters (catalog : List Project) (_cs : ControllerState) :
    ControllerState × String :=
  (⟨⟨catalog, noFilters, ""⟩, ""⟩, "/projects")

theorem filterProjects_noFilters (catalog : List Project) :
    filterProjects catalog noFilters "" = catalog := by
  unfold filterProjects
  rw [List.filter_eq_self]
  intro p _
  simp [matchesFilters, matchesSearch, allFilters, noFilters, CategorySets.get]
  exact Or.inl (Or.inl (by decide))

/-- C5: from every store state, the clear-all operation yields a state
with empty filter selections, an empty query string, and the full catalog
as the filtered result (which coincides with filtering under the reset
selections and empty search). -/
theorem clearAll_resets (catalog : List Project) (cs : ControllerState) :
    (clearAllFilters catalog cs).1.store.activeFilters = noFilters ∧
    (clearAllFilters catalog cs).1.store.queryString = "" ∧
    (clearAllFilters catalog cs).1.store.projects = catalog ∧
    filterProjects catalog (clearAllFilters catalog cs).1.store.activeFilters
        (clearAllFilters catalog cs).1.store.queryString = catalog :=
  ⟨rfl, rfl, rfl, filterProjects_noFilters catalog⟩

/-- The live filter-selection count of `ProjectFiltersBar`:
`Object.values(activeFilters).reduce((acc, curr) => acc + curr.length, 0)`. -/
def filterCount (f : CategorySets) : Nat :=
  allFilters.foldl (fun acc c => acc + (f.get c).card) 0

/-- `hasActiveFilters = filterCount > 0 || searchQuery.length > 0`; the
clear-all controls are rendered with `disabled={!hasActiveFilters}`. -/
def hasActiveFilters (f : CategorySets) (searchQuery : String) : Bool :=
  decide (filterCount f > 0) || decide (searchQuery.length > 0)

theorem string_length_eq_zero_iff (q : String) : q.length = 0 ↔ q = "" := by
  cases q with
  | mk l =>
    constructor
    · intro h
      have hl : l = [] := by simpa [String.length] using h
      subst hl
      rfl
    · intro h
      have hl : l = [] := by simpa using congrArg String.data h
      simp [String.length, hl]

/-- C9: the displayed filter count is the sum over all categories of the
number of selected values in that category (the search text does not
enter it), and the clear-all controls are disabled exactly when this
count is zero and the search text is empty. -/
theorem filterCount_spec (f : CategorySets) (searchQuery : String) :
    filterCount f = f.themes.card + f.status.card ∧
    (hasActiveFilters f searchQuery = false ↔
      filterCount f = 0 ∧ searchQuery = "") := by
  constructor
  · simp [filterCount, allFilters, CategorySets.get]
  · simp only [hasActiveFilters, Bool.or_eq_false_iff, decide_eq_false_iff_not,
      Nat.not_lt, Nat.le_zero, string_length_eq_zero_iff]

/-- The label part of `ThemesButtonMapping`; `none` models a lookup miss
(`undefined` in the source). -/
def themesButtonLabel : String → Option String
  | "build" => some "Build"
  | "play" => some "Play"
  | "research" => some "Research"
  | _ => none

/-- `ProjectCard`'s rendering of one theme tag: `const { label } =
ThemesButtonMapping?.[theme]` destructures the lookup result, which
throws a `TypeError` (modelled as `Except.error ()`) when the theme is
not a statically known key; otherwise the tag renders with the label
(`label ?? theme` — the fallback is unreachable, since a successful
destructuring always yields a label). -/
def renderThemeTag (theme : String) : Except Unit String :=
  match themesButtonLabel theme with
  | none => .error ()
  | some label => .ok label

/-- `ProjectCard` renders one tag per entry of `tags.themes`; a single
unknown theme aborts the whole render with the error. -/
def renderProjectCardThemes (themes : List String) : Except Unit (List String) :=
  themes.mapM renderThemeTag

/-- C2: rendering a project whose theme tag is one of the statically
known themes succeeds, but — contrary to the claim's no-op failure
semantics — a theme tag outside the statically known set makes
`ProjectCard` fail: the destructuring of the `ThemesButtonMapping` lookup
throws instead of skipping the unknown value. -/
theorem renderThemeTag_unknown_errors :
    renderProjectCardThemes ["build", "play", "research"] =
      .ok ["Build", "Play", "Research"] ∧
    renderProjectCardThemes ["zk"] = .error () := by
  constructor <;> rfl

/-- Direct state replacement used to hydrate the store from the URL on
mount: overwrites `activeFilters` with the decoded query parameters and
leaves the stored query string (and projects) unchanged. -/
def hydrateFromUrl (st : ProjectFiltersState) (params : String) :
    ProjectFiltersState :=
  { st with activeFilters := decode params }

def effectRunsAux {α : Type} [DecidableEq α] (prev : α) : List α → List α
  | [] => []
  | d :: ds => if d = prev then effectRunsAux prev ds else d :: effectRunsAux d ds

/-- The dependency values at which a React effect runs, given the
per-render values of its dependency array: the effect runs on the first
render and on every render whose dependencies differ from the previous
render's. -/
def effectRuns {α : Type} [DecidableEq α] : List α → List α
  | [] => []
  | d :: ds => d :: effectRunsAux d ds

theorem effectRunsAux_constant {α : Type} [DecidableEq α] (a : α) (k : Nat) :
    effectRunsAux a (List.replicate k a) = [] := by
  induction k with
  | zero => rfl
  | succ n ih => simp [List.replicate, effectRunsAux, ih]

/-- C8: hydration from the URL overwrites the store's active filters with
the decoded query parameters, leaving the stored query string (and the
project list) unchanged; and the mount effect that performs it — an
effect whose dependency array is empty, modelled as a constant
dependency — runs exactly once over any positive number of renders. -/
theorem hydration_once (st : ProjectFiltersState) (params : String) (n : Nat)
    (h : 1 ≤ n) :
    (hydrateFromUrl st params).activeFilters = decode params ∧
    (hydrateFromUrl st params).queryString = st.queryString ∧
    (hydrateFromUrl st params).projects = st.projects ∧
    effectRuns (List.replicate n ()) = [()] := by
  refine ⟨rfl, rfl, rfl, ?_⟩
  cases n with
  | zero => exact absurd h (by decide)
  | succ m => simp [List.replicate, effectRuns, effectRunsAux_constant]

theorem hydration_once_witness :
    decode "themes=build" = (⟨{"build"}, ∅⟩ : CategorySets) ∧ 1 ≤ 3 ∧
    ((hydrateFromUrl ⟨[], noFilters, "x"⟩ "themes=build").activeFilters =
        decode "themes=build" ∧
      (hydrateFromUrl ⟨[], noFilters, "x"⟩ "themes=build").queryString =
        (⟨[], noFilters, "x"⟩ : ProjectFiltersState).queryString ∧
      (hydrateFromUrl ⟨[], noFilters, "x"⟩ "themes=build").projects =
        (⟨[], noFilters, "x"⟩ : ProjectFiltersState).projects ∧
      effectRuns (List.replicate 3 ()) = [()]) :=
  ⟨by decide, by decide, hydration_once ⟨[], noFilters, "x"⟩ "themes=build" 3 (by decide)⟩

/-- The debounce timeout of the search input, in milliseconds. -/
def debounceDelay : Nat := 500

/-- The debounce timer machine: the state is the pending timer (deadline
and value to apply).  Each keystroke first lets a pending timer whose
deadline lies strictly before the keystroke fire, then cancels any
remaining pending timer and arms a new one `debounceDelay` out with the
keystroke's value; at the end of the trace the pending timer fires. -/
def debounceAux : Option (Nat × String) → List (Nat × String) → List (Nat × String)
  | pending, [] => pending.toList
  | some (d, pv), (t, v) :: ks =>
    if d < t then (d, pv) :: debounceAux (some (t + debounceDelay, v)) ks
    else debounceAux (some (t + debounceDelay, v)) ks
  | none, (t, v) :: ks => debounceAux (some (t + debounceDelay, v)) ks

/-- Modelled from the spec: `useDebounce(() => onFilterProject(searchQuery),
500, [searchQuery])` (the `react-use` hook is not part of this excerpt) —
the instants and values at which the debounced recomputation fires, for a
given keystroke trace of `(time, value)` pairs. -/
def debounceFires (ks : List (Nat × String)) : List (Nat × String) :=
  debounceAux none ks

/-- Declarative trailing-edge reading: a keystroke fires `debounceDelay`
later iff the next keystroke (if any) comes strictly more than
`debounceDelay` after it. -/
def quietFires : List (Nat × String) → List (Nat × String)
  | [] => []
  | (t, v) :: ks =>
    match ks with
    | [] => [(t + debounceDelay, v)]
    | (t', _) :: _ =>
      if t + debounceDelay < t' then (t + debounceDelay, v) :: quietFires ks
      else quietFires ks

/-- A keystroke trace is chronological when its times strictly increase. -/
abbrev chrono (ks : List (Nat × String)) : Prop :=
  List.Pairwise (fun a b => a.1 < b.1) ks

theorem debounceAux_some (ks : List (Nat × String)) :
    ∀ (t : Nat) (v : String),
      debounceAux (some (t + debounceDelay, v)) ks = quietFires ((t, v) :: ks) := by
  induction ks with
  | nil => intro t v; rfl
  | cons p rest ih =>
    intro t v
    obtain ⟨t', v'⟩ := p
    simp only [debounceAux, quietFires]
    rw [ih t' v']
    rfl

theorem debounceFires_eq_quietFires (ks : List (Nat × String)) :
    debounceFires ks = quietFires ks := by
  cases ks with
  | nil => rfl
  | cons p rest =>
    obtain ⟨t, v⟩ := p
    exact debounceAux_some rest t v

theorem mem_quietFires (ks : List (Nat × String)) (f : Nat) (w : String)
    (h : (f, w) ∈ quietFires ks) :
    ∃ t, (t, w) ∈ ks ∧ f = t + debounceDelay := by
  induction ks with
  | nil => simp [quietFires] at h
  | cons p rest ih =>
    obtain ⟨t, v⟩ := p
    cases rest with
    | nil =>
      simp only [quietFires, List.mem_singleton, Prod.mk.injEq] at h
      exact ⟨t, by simp [h.2], h.1⟩
    | cons p' rest' =>
      obtain ⟨t', v'⟩ := p'
      simp only [quietFires] at h
      by_cases hlt : t + debounceDelay < t'
      · rw [if_pos hlt] at h
        rcases List.mem_cons.mp h with heq | hmem
        · obtain ⟨h1, h2⟩ := Prod.mk.injEq .. ▸ heq
          exact ⟨t, by simp [h2], h1⟩
        · obtain ⟨t₀, hmem₀, h₀⟩ := ih hmem
          exact ⟨t₀, List.mem_cons_of_mem _ hmem₀, h₀⟩
      · rw [if_neg hlt] at h
        obtain ⟨t₀, hmem₀, h₀⟩ := ih h
        exact ⟨t₀, List.mem_cons_of_mem _ hmem₀, h₀⟩

theorem quietFires_singleton (t : Nat) (v : String) :
    quietFires [(t, v)] = [(t + debounceDelay, v)] := rfl

theorem quietFires_cons₂ (t t' : Nat) (v v' : String)
    (rest : List (Nat × String)) :
    quietFires ((t, v) :: (t', v') :: rest) =
      if t + debounceDelay < t' then
        (t + debounceDelay, v) :: quietFires ((t', v') :: rest)
      else quietFires ((t', v') :: rest) := rfl

theorem mem_quietFires_iff (ks : List (Nat × String)) (hc : chrono ks)
    (f : Nat) (w : String) :
    (f, w) ∈ quietFires ks ↔
      ∃ t, (t, w) ∈ ks ∧ f = t + debounceDelay ∧
        ∀ p ∈ ks, ¬(t < p.1 ∧ p.1 ≤ t + debounceDelay) := by
  induction ks with
  | nil => simp [quietFires]
  | cons p rest ih =>
    obtain ⟨t, v⟩ := p
    obtain ⟨hall, hrest⟩ := List.pairwise_cons.mp hc
    cases rest with
    | nil =>
      rw [quietFires_singleton]
      constructor
      · intro hmem
        have heq : (f, w) = (t + debounceDelay, v) := List.mem_singleton.mp hmem
        have h1 : f = t + debounceDelay := congrArg Prod.fst heq
        have h2 : w = v := congrArg Prod.snd heq
        refine ⟨t, ?_, h1, ?_⟩
        · rw [h2]
          exact List.mem_singleton.mpr rfl
        · intro q hqmem
          have hq' : q = (t, v) := List.mem_singleton.mp hqmem
          subst hq'
          exact fun hcon => Nat.lt_irrefl t hcon.1
      · rintro ⟨t₀, hmem₀, hf₀, _⟩
        have heq : (t₀, w) = (t, v) := List.mem_singleton.mp hmem₀
        have h1 : t₀ = t := congrArg Prod.fst heq
        have h2 : w = v := congrArg Prod.snd heq
        rw [List.mem_singleton, hf₀, h1, h2]
    | cons p' rest' =>
      obtain ⟨t', v'⟩ := p'
      have hall' : ∀ q ∈ (t', v') :: rest', t < q.1 := hall
      have hrest_all : ∀ q ∈ rest', t' < q.1 :=
        fun q hq => (List.pairwise_cons.mp hrest).1 q hq
      rw [quietFires_cons₂]
      by_cases hq : t + debounceDelay < t'
      · rw [if_pos hq]
        constructor
        · intro hmem
          rcases List.mem_cons.mp hmem with heq | hmem'
          · have h1 : f = t + debounceDelay := congrArg Prod.fst heq
            have h2 : w = v := congrArg Prod.snd heq
            refine ⟨t, by rw [h2]; exact List.mem_cons_self _ _, h1, ?_⟩
            intro q hqmem
            rcases List.mem_cons.mp hqmem with rfl | hq'
            · exact fun hcon => Nat.lt_irrefl t hcon.1
            · rcases List.mem_cons.mp hq' with rfl | hq''
              · exact fun hcon => absurd hcon.2 (Nat.not_le.mpr hq)
              · have hlt : t' < q.1 := hrest_all q hq''
                exact fun hcon =>
                  absurd hcon.2 (Nat.not_le.mpr (Nat.lt_trans hq hlt))
          · obtain ⟨t₀, hmem₀, hf₀, hquiet₀⟩ := (ih hrest).mp hmem'
            refine ⟨t₀, List.mem_cons_of_mem _ hmem₀, hf₀, ?_⟩
            intro q hqmem
            rcases List.mem_cons.mp hqmem with rfl | hq'
            · have hlt : t < t₀ := hall' _ hmem₀
              exact fun hcon => absurd hlt (Nat.not_lt.mpr (Nat.le_of_lt hcon.1))
            · exact hquiet₀ q hq'
        · rintro ⟨t₀, hmem₀, hf₀, hquiet₀⟩
          rcases List.mem_cons.mp hmem₀ with heq | hmem'
          · have h1 : t₀ = t := congrArg Prod.fst heq
            have h2 : w = v := congrArg Prod.snd heq
            exact List.mem_cons.mpr (Or.inl (by rw [hf₀, h1, h2]))
          · exact List.mem_cons_of_mem _
              ((ih hrest).mpr ⟨t₀, hmem', hf₀,
                fun q hq' => hquiet₀ q (List.mem_cons_of_mem _ hq')⟩)
      · rw [if_neg hq]
        constructor
        · intro hmem
          obtain ⟨t₀, hmem₀, hf₀, hquiet₀⟩ := (ih hrest).mp hmem
          refine ⟨t₀, List.mem_cons_of_mem _ hmem₀, hf₀, ?_⟩
          intro q hqmem
          rcases List.mem_cons.mp hqmem with rfl | hq'
          · have hlt : t < t₀ := hall' _ hmem₀
            exact fun hcon => absurd hlt (Nat.not_lt.mpr (Nat.le_of_lt hcon.1))
          · exact hquiet₀ q hq'
        · rintro ⟨t₀, hmem₀, hf₀, hquiet₀⟩
          rcases List.mem_cons.mp hmem₀ with heq | hmem'
          · exfalso
            have h1 : t₀ = t := congrArg Prod.fst heq
            subst h1
            have hcontra := hquiet₀ (t', v')
              (List.mem_cons_of_mem _ (List.mem_cons_self _ _))
            exact hcontra ⟨hall' _ (List.mem_cons_self _ _), Nat.not_lt.mp hq⟩
          · exact (ih hrest).mpr ⟨t₀, hmem', hf₀,
              fun q hq' => hquiet₀ q (List.mem_cons_of_mem _ hq')⟩

theorem quietFires_chrono (ks : List (Nat × String)) (hc : chrono ks) :
    chrono (quietFires ks) := by
  induction ks with
  | nil => exact List.Pairwise.nil
  | cons p rest ih =>
    obtain ⟨t, v⟩ := p
    obtain ⟨hall, hrest⟩ := List.pairwise_cons.mp hc
    cases rest with
    | nil =>
      rw [quietFires_singleton]
      simp
    | cons p' rest' =>
      obtain ⟨t', v'⟩ := p'
      rw [quietFires_cons₂]
      by_cases hq : t + debounceDelay < t'
      · rw [if_pos hq]
        refine List.pairwise_cons.mpr ⟨?_, ih hrest⟩
        intro q hqmem
        obtain ⟨f₀, w₀⟩ := q
        obtain ⟨t₀, hmem₀, hf₀⟩ := mem_quietFires _ _ _ hqmem
        have ht₀ : t < t₀ := hall _ hmem₀
        simpa [hf₀] using Nat.add_lt_add_right ht₀ debounceDelay
      · rw [if_neg hq]
        exact ih hrest

/-- C6: over any chronological sequence of search keystrokes, the
debounced recomputation fires exactly at the instants 500ms after a
keystroke followed by no further keystroke within 500ms — once per quiet
period (fire times strictly increase), with the value of that most recent
keystroke; values typed during a quiet period but superseded before it
elapses are never applied. -/
theorem debounce_trailing_edge (ks : List (Nat × String)) (hc : chrono ks) :
    (∀ f w, (f, w) ∈ debounceFires ks ↔
      ∃ t, (t, w) ∈ ks ∧ f = t + debounceDelay ∧
        ∀ p ∈ ks, ¬(t < p.1 ∧ p.1 ≤ t + debounceDelay)) ∧
    chrono (debounceFires ks) := by
  rw [debounceFires_eq_quietFires]
  exact ⟨mem_quietFires_iff ks hc, quietFires_chrono ks hc⟩

/-- The spec's debounce example: keystrokes at 0, 100, 200, 300ms, final
value `"abc"`. -/
def sampleKeystrokes : List (Nat × String) :=
  [(0, "a"), (100, "ab"), (200, "ab"), (300, "abc")]

theorem debounce_trailing_edge_witness :
    debounceFires sampleKeystrokes = [(800, "abc")] ∧
    ((∀ f w, (f, w) ∈ debounceFires sampleKeystrokes ↔
      ∃ t, (t, w) ∈ sampleKeystrokes ∧ f = t + debounceDelay ∧
        ∀ p ∈ sampleKeystrokes, ¬(t < p.1 ∧ p.1 ≤ t + debounceDelay)) ∧
    chrono (debounceFires sampleKeystrokes)) :=
  ⟨by decide, debounce_trailing_edge sampleKeystrokes (by decide)⟩

/-- The `useEffect` on `queryString`: `if (!queryString) return;
router.push(`/projects?${queryString}`)` — the navigation pushed for a
given query string, `none` when the string is empty. -/
def queryStringEffect (qs : String) : Option String :=
  if qs = "" then none else some ("/projects?" ++ qs)

/-- An observable step of the controller: a store update (a render with
the new store state) or a router navigation push. -/
inductive UiEvent where
  | storeUpdate (st : ProjectFiltersState)
  | navigate (url : String)
deriving DecidableEq

/-- One full mutation cycle for a filter toggle: the store update renders
first, then the `queryString` effect runs on the freshly recomputed
string and pushes the navigation when it is non-empty. -/
def toggleEvents (catalog : List Project) (st : ProjectFiltersState)
    (tag : ProjectFilter) (value : String) (searchQuery : String) :
    List UiEvent :=
  UiEvent.storeUpdate (toggleFilter catalog st tag value searchQuery) ::
    ((queryStringEffect (toggleFilter catalog st tag value searchQuery).queryString).toList.map
      UiEvent.navigate)

/-- The clear-all cycle: store reset, the direct `router.push("/projects")`,
then the `queryString` effect on the now-empty string (which pushes
nothing). -/
def clearAllEvents (catalog : List Project) (cs : ControllerState) :
    List UiEvent :=
  UiEvent.storeUpdate (clearAllFilters catalog cs).1.store ::
    UiEvent.navigate (clearAllFilters catalog cs).2 ::
    ((queryStringEffect (clearAllFilters catalog cs).1.store.queryString).toList.map
      UiEvent.navigate)

/-- C7: in a toggle mutation cycle, every navigation push carries the URL
built from the query string recomputed by that mutation, and it comes
strictly after the store update (the event list is exactly the update
followed by one push) whenever the new query string is non-empty; an
empty query string pushes nothing, and clearing the filters instead
navigates exactly once, to bare `/projects`. -/
theorem navigation_reflects_querystring (catalog : List Project)
    (st : ProjectFiltersState) (tag : ProjectFilter) (value : String)
    (searchQuery : String) (cs : ControllerState) :
    (∀ url, UiEvent.navigate url ∈ toggleEvents catalog st tag value searchQuery →
      (toggleFilter catalog st tag value searchQuery).queryString ≠ "" ∧
      url = "/projects?" ++ (toggleFilter catalog st tag value searchQuery).queryString) ∧
    ((toggleFilter catalog st tag value searchQuery).queryString ≠ "" →
      toggleEvents catalog st tag value searchQuery =
        [UiEvent.storeUpdate (toggleFilter catalog st tag value searchQuery),
          UiEvent.navigate
            ("/projects?" ++ (toggleFilter catalog st tag value searchQuery).queryString)]) ∧
    ((toggleFilter catalog st tag value searchQuery).queryString = "" →
      toggleEvents catalog st tag value searchQuery =
        [UiEvent.storeUpdate (toggleFilter catalog st tag value searchQuery)]) ∧
    clearAllEvents catalog cs =
      [UiEvent.storeUpdate ⟨catalog, noFilters, ""⟩, UiEvent.navigate "/projects"] := by
  refine ⟨?_, ?_, ?_, ?_⟩
  · intro url hmem
    by_cases hqs : (toggleFilter catalog st tag value searchQuery).queryString = ""
    · simp [toggleEvents, queryStringEffect, hqs] at hmem
    · simp only [toggleEvents, queryStringEffect, if_neg hqs, Option.toList_some,
        List.map_cons, List.map_nil, List.mem_cons, List.not_mem_nil, or_false] at hmem
      rcases hmem with hmem | hmem
      · exact absurd hmem (by simp)
      · exact ⟨hqs, by injection hmem⟩
  · intro hqs
    simp [toggleEvents, queryStringEffect, hqs]
  · intro hqs
    simp [toggleEvents, queryStringEffect, hqs]
  · simp [clearAllEvents, clearAllFilters, queryStringEffect]

theorem navigation_reflects_querystring_witness :
    toggleEvents sampleCatalog ⟨sampleCatalog, noFilters, ""⟩ .themes "research" "" =
      [UiEvent.storeUpdate
          ⟨[sampleProofs], ⟨{"research"}, ∅⟩, "themes=research"⟩,
        UiEvent.navigate "/projects?themes=research"] ∧
    ((∀ url, UiEvent.navigate url ∈
        toggleEvents sampleCatalog ⟨sampleCatalog, noFilters, ""⟩ .themes "research" "" →
      (toggleFilter sampleCatalog ⟨sampleCatalog, noFilters, ""⟩ .themes "research" "").queryString ≠ "" ∧
      url = "/projects?" ++
        (toggleFilter sampleCatalog ⟨sampleCatalog, noFilters, ""⟩ .themes "research" "").queryString) ∧
    ((toggleFilter sampleCatalog ⟨sampleCatalog, noFilters, ""⟩ .themes "research" "").queryString ≠ "" →
      toggleEvents sampleCatalog ⟨sampleCatalog, noFilters, ""⟩ .themes "research" "" =
        [UiEvent.storeUpdate
            (toggleFilter sampleCatalog ⟨sampleCatalog, noFilters, ""⟩ .themes "research" ""),
          UiEvent.navigate ("/projects?" ++
            (toggleFilter sampleCatalog ⟨sampleCatalog, noFilters, ""⟩ .themes "research" "").queryString)]) ∧
    ((toggleFilter sampleCatalog ⟨sampleCatalog, noFilters, ""⟩ .themes "research" "").queryString = "" →
      toggleEvents sampleCatalog ⟨sampleCatalog, noFilters, ""⟩ .themes "research" "" =
        [UiEvent.storeUpdate
            (toggleFilter sampleCatalog ⟨sampleCatalog, noFilters, ""⟩ .themes "research" "")]) ∧
    clearAllEvents sampleCatalog ⟨⟨sampleCatalog, noFilters, ""⟩, ""⟩ =
      [UiEvent.storeUpdate ⟨sampleCatalog, noFilters, ""⟩,
        UiEvent.navigate "/projects"]) :=
  ⟨by decide,
    navigation_reflects_querystring sampleCatalog ⟨sampleCatalog, noFilters, ""⟩
      .themes "research" "" ⟨⟨sampleCatalog, noFilters, ""⟩, ""⟩⟩

/-- C10: beyond resetting the store, clear-all resets the local pending
search text to the empty string and navigates to bare `/projects`; the
debounced recomputation that fires afterwards applies the (now empty)
pending search term, leaving the reset store unchanged with the full
catalog as its results. -/
theorem clearAll_clears_search (catalog : List Project) (cs : ControllerState) :
    (clearAllFilters catalog cs).1.searchQuery = "" ∧
    (clearAllFilters catalog cs).2 = "/projects" ∧
    onFilterProject catalog (clearAllFilters catalog cs).1.store
        (clearAllFilters catalog cs).1.searchQuery =
      (clearAllFilters catalog cs).1.store := by
  refine ⟨rfl, rfl, ?_⟩
  show onFilterProject catalog ⟨catalog, noFilters, ""⟩ "" = ⟨catalog, noFilters, ""⟩
  simp [onFilterProject, filterProjects_noFilters]

end Website
